import Mathlib

/-!
Verification of the candidate-generation and ranking core of the
support-simple-spell-checker extension.  The definitions below are a
shallow embedding of the service-worker implementation (`scoreWord`,
`editDistanceOne`, `rankCandidates`, `suggestCorrections`, the message
listener, and their helpers).  JavaScript strings are modelled as
`List Char`, objects used as string-keyed tables as `List Char → Option ℚ`,
`Set`s as deduplicated lists, and `Math.log` (a transcendental real
function with no exact executable counterpart) as an abstract parameter
`log : ℚ → ℚ` threaded through the ranker.
-/

namespace SpellCheck

/-- Model of JavaScript `String.prototype.toLowerCase` on the Latin-1
range the extension uses: ASCII `A`–`Z` and the accented uppercase
letters `À`–`Þ` (except `×`) map down by 32 code points; every other
character is unchanged. -/
def jsToLower (c : Char) : Char :=
  if ('A' ≤ c ∧ c ≤ 'Z') ∨ ('À' ≤ c ∧ c ≤ 'Þ' ∧ c ≠ '×') then
    Char.ofNat (c.toNat + 32)
  else c

/-- `word.toLowerCase()` on a whole string. -/
def toLowerCase (s : List Char) : List Char := s.map jsToLower

/-- `new Set(array)` iterated back into an array: keeps the first
occurrence of each element, in order. -/
def jsSetDedup {α : Type} [DecidableEq α] (l : List α) : List α :=
  l.foldl (fun acc a => if a ∈ acc then acc else acc ++ [a]) []

/-- `scoreWord(word, bigramScores)` from the service worker: lowercase the
word; if it is shorter than 2 characters return 0, otherwise sum
`bigramScores[word.slice(i, i + 2)] ?? -1.5` for `i = 0 .. length - 2`. -/
def scoreWord (word : List Char) (bigramScores : List Char → Option ℚ) : ℚ :=
  let normalized := toLowerCase word
  if normalized.length < 2 then 0
  else
    (List.range (normalized.length - 1)).foldl
      (fun score i => score + ((bigramScores ((normalized.drop i).take 2)).getD (-(3 / 2)))) 0

/-- The alphabet string used by `editDistanceOne` in the service worker. -/
def letters : List Char := "abcdefghijklmnopqrstuvwxyzáàâãäéêëíïóôõöúüç".toList

/-- The `(left, right)` partitions of the word at every index `0 .. n`. -/
def splits (word : List Char) : List (List Char × List Char) :=
  (List.range (word.length + 1)).map fun i => (word.take i, word.drop i)

/-- `deletes`: for every split with a non-empty right part,
`left + right.slice(1)`. -/
def deletes (word : List Char) : List (List Char) :=
  ((splits word).filter fun p => !p.2.isEmpty).map fun p => p.1 ++ p.2.tail

/-- `transposes`: for every split whose right part has length > 1,
`left + right[1] + right[0] + right.slice(2)`.  (The fallback match arm is
unreachable because the filter guarantees two characters.) -/
def transposes (word : List Char) : List (List Char) :=
  ((splits word).filter fun p => decide (1 < p.2.length)).map fun p =>
    match p.2 with
    | a :: b :: rest => p.1 ++ b :: a :: rest
    | r => p.1 ++ r

/-- `replaces`: for every split with a non-empty right part and every
alphabet letter, `left + char + right.slice(1)`. -/
def replaces (word : List Char) : List (List Char) :=
  ((splits word).filter fun p => !p.2.isEmpty).flatMap fun p =>
    letters.map fun c => p.1 ++ c :: p.2.tail

/-- `inserts`: for every split and every alphabet letter,
`left + char + right`. -/
def inserts (word : List Char) : List (List Char) :=
  (splits word).flatMap fun p => letters.map fun c => p.1 ++ c :: p.2

/-- `editDistanceOne(word)`: the `Set` of all four edit families. -/
def editDistanceOne (word : List Char) : List (List Char) :=
  jsSetDedup (deletes word ++ transposes word ++ replaces word ++ inserts word)

/-- The loaded lexicon (`model` in the source): a dictionary of known
lowercase words, a word → frequency table and a bigram → log-score
table. -/
structure Model where
  dictionary : List (List Char)
  frequencies : List Char → Option ℚ
  bigramScores : List Char → Option ℚ

/-- An entry of the ranker's `scored` array. -/
structure Scored where
  candidate : List Char
  score : ℚ
deriving DecidableEq

/-- The score the ranker assigns to a surviving candidate:
`scoreWord(candidate, model.bigramScores) + Math.log(model.frequencies[candidate] ?? 1)`. -/
def candidateScore (candidate : List Char) (model : Model) (log : ℚ → ℚ) : ℚ :=
  scoreWord candidate model.bigramScores + log ((model.frequencies candidate).getD 1)

/-- The comparator `(a, b) => b.score - a.score`: a comes before b when
its score is at least b's. -/
def scoreGE (a b : Scored) : Prop := b.score ≤ a.score

instance : DecidableRel scoreGE := fun a b => inferInstanceAs (Decidable (b.score ≤ a.score))

instance : IsTotal Scored scoreGE := ⟨fun a b => le_total b.score a.score⟩

instance : IsTrans Scored scoreGE := ⟨fun _ _ _ h1 h2 => le_trans h2 h1⟩

/-- The ranker's filtering loop: a candidate in neither the dictionary
nor the custom-word set is skipped (`continue`), the others are pushed
with their score. -/
def scoredList (candidates : List (List Char)) (model : Model)
    (customWords : List (List Char)) (log : ℚ → ℚ) : List Scored :=
  candidates.filterMap fun candidate =>
    if candidate ∈ model.dictionary ∨ candidate ∈ customWords then
      some { candidate := candidate, score := candidateScore candidate model log }
    else none

/-- `rankCandidates(token, candidates, model, customWords)`: keep the
candidates known to the dictionary or the custom-word set, score them,
sort by descending score (a stable comparator sort, modelled by
`List.insertionSort`), keep the first 5 and project the strings. -/
def rankCandidates (token : List Char) (candidates : List (List Char)) (model : Model)
    (customWords : List (List Char)) (log : ℚ → ℚ) : List (List Char) :=
  ((List.insertionSort scoreGE (scoredList candidates model customWords log)).take 5).map
    fun e => e.candidate

/-- A failed `fetch(modelUrl)` / `response.json()` chain. -/
inductive LoadError
  | fetchFailed
deriving DecidableEq

/-- The persisted extension options (`defaultOptions` shape). -/
structure Options where
  enabled : Bool
  language : List Char
  customWords : List Char
  allowlist : List Char
deriving DecidableEq

/-- Service-worker state: `currentOptions` and the `modelCache` map from
model URL to the (possibly rejected) load promise. -/
structure SWState where
  currentOptions : Options
  modelCache : List (List Char × Except LoadError Model)

/-- `getModelUrl(language)`. -/
def getModelUrl (language : List Char) : List Char :=
  if language = "pt-PT".toList then "models/pt.json".toList
  else "models/model.json".toList

/-- `loadModel(language)`: memoized per URL; on a cache miss the fetch
outcome (supplied by the environment `env`) is cached, settled or not. -/
def loadModel (env : List Char → Except LoadError Model) (st : SWState)
    (language : List Char) : Except LoadError Model × SWState :=
  let modelUrl := getModelUrl language
  match st.modelCache.lookup modelUrl with
  | some cached => (cached, st)
  | none =>
      let modelPromise := env modelUrl
      (modelPromise, { st with modelCache := (modelUrl, modelPromise) :: st.modelCache })

/-- ECMAScript whitespace as consumed by `String.prototype.trim`
(space, tab, line feed, carriage return, vertical tab, form feed). -/
def jsIsSpace (c : Char) : Bool :=
  c == ' ' || c == '\t' || c == '\n' || c == '\r' || c == '\x0b' || c == '\x0c'

/-- `word.trim()`. -/
def jsTrim (s : List Char) : List Char :=
  ((s.dropWhile jsIsSpace).reverse.dropWhile jsIsSpace).reverse

/-- `parseCustomWords(customWords)`: split on commas, trim and lowercase
each entry, drop empties, collect into a `Set`. -/
def parseCustomWords (customWords : List Char) : List (List Char) :=
  jsSetDedup
    (((customWords.splitOn ',').map fun word => toLowerCase (jsTrim word)).filter
      fun word => !word.isEmpty)

/-- The `{ isCorrect, suggestions }` verdict returned to the caller. -/
structure Verdict where
  isCorrect : Bool
  suggestions : List (List Char)
deriving DecidableEq

/-- Outcome of one `suggestCorrections` call: the settled promise, the
service-worker state afterwards, and instrumentation recording whether
`loadModel` and the generation/ranking stage were reached. -/
structure CheckResult where
  response : Except LoadError Verdict
  state : SWState
  loadInvoked : Bool
  genInvoked : Bool

/-- The body of `suggestCorrections` once the effective options are
settled: the disabled gate, the model load, the short-circuit test and
the generation/ranking stage. -/
def suggestCore (env : List Char → Except LoadError Model) (options : Options)
    (st1 : SWState) (token : List Char) (log : ℚ → ℚ) : CheckResult :=
  if options.enabled = false then
    ⟨.ok ⟨true, []⟩, st1, false, false⟩
  else
    match loadModel env st1 options.language with
    | (.error e, st2) => ⟨.error e, st2, true, false⟩
    | (.ok model, st2) =>
        let normalized := toLowerCase token
        let customWords := parseCustomWords options.customWords
        if normalized.isEmpty ∨ normalized ∈ model.dictionary ∨ normalized ∈ customWords then
          ⟨.ok ⟨true, []⟩, st2, true, false⟩
        else
          let candidates := editDistanceOne normalized
          let suggestions := rankCandidates normalized candidates model customWords log
          ⟨.ok ⟨suggestions.length == 0, suggestions⟩, st2, true, true⟩

/-- `suggestCorrections(token)`.  `stored` is what `loadOptions()` would
read back from `chrome.storage.sync`; it is consulted (and becomes
`currentOptions`) exactly when `currentOptions.enabled` is false, as in
the source. -/
def suggestCorrections (env : List Char → Except LoadError Model) (stored : Options)
    (st : SWState) (token : List Char) (log : ℚ → ℚ) : CheckResult :=
  suggestCore env (if st.currentOptions.enabled then st.currentOptions else stored)
    (if st.currentOptions.enabled then st else { st with currentOptions := stored }) token log

/-- The `chrome.runtime.onMessage` listener around `suggestCorrections`:
a fulfilled promise is forwarded, a rejected one is caught and degraded
to `{ isCorrect: true, suggestions: [] }`. -/
def handleSpellcheck (env : List Char → Except LoadError Model) (stored : Options)
    (st : SWState) (token : List Char) (log : ℚ → ℚ) : Verdict :=
  match (suggestCorrections env stored st token log).response with
  | .ok result => result
  | .error _ => ⟨true, []⟩

/-! ### General helper lemmas -/

theorem mem_foldl_dedup {α : Type} [DecidableEq α] (l : List α) (acc : List α) (x : α) :
    x ∈ l.foldl (fun acc a => if a ∈ acc then acc else acc ++ [a]) acc ↔ x ∈ acc ∨ x ∈ l := by
  induction l generalizing acc with
  | nil => simp
  | cons a l ih =>
      simp only [List.foldl_cons, ih, List.mem_cons]
      by_cases h : a ∈ acc
      · rw [if_pos h]
        constructor
        · rintro (hx | hx)
          · exact Or.inl hx
          · exact Or.inr (Or.inr hx)
        · rintro (hx | rfl | hx)
          · exact Or.inl hx
          · exact Or.inl h
          · exact Or.inr hx
      · rw [if_neg h]
        simp only [List.mem_append, List.mem_singleton]
        tauto

theorem mem_jsSetDedup {α : Type} [DecidableEq α] {l : List α} {x : α} :
    x ∈ jsSetDedup l ↔ x ∈ l := by
  simp [jsSetDedup, mem_foldl_dedup]

theorem foldl_add_eq_sum {α : Type} (f : α → ℚ) (l : List α) (c : ℚ) :
    l.foldl (fun s a => s + f a) c = c + (l.map f).sum := by
  induction l generalizing c with
  | nil => simp
  | cons a l ih => simp [ih, add_assoc]

/-- The indexed traversal of adjacent 2-character windows equals the sum
over `l.zip l.tail`. -/
theorem range_window_sum (l : List Char) (g : List Char → ℚ) :
    ((List.range (l.length - 1)).map fun i => g ((l.drop i).take 2)).sum
      = ((l.zip l.tail).map fun p => g [p.1, p.2]).sum := by
  induction l with
  | nil => simp
  | cons a l ih =>
      cases l with
      | nil => simp
      | cons b t =>
          have hlen : (a :: b :: t).length - 1 = ((b :: t).length - 1) + 1 := by
            simp
          rw [hlen, List.range_succ_eq_map, List.map_cons, List.map_map]
          simp only [Function.comp_def, List.drop_succ_cons, List.drop_zero, List.sum_cons]
          rw [ih]
          simp

/-- `scoreWord` computed as a sum over the adjacent windows of the
lowercased word (for words shorter than 2 characters there are no
windows and the sum is 0). -/
theorem scoreWord_eq_windowSum (word : List Char) (tbl : List Char → Option ℚ) :
    scoreWord word tbl
      = (((toLowerCase word).zip (toLowerCase word).tail).map
          fun p => (tbl [p.1, p.2]).getD (-(3 / 2))).sum := by
  unfold scoreWord
  cases hw : toLowerCase word with
  | nil => simp
  | cons a t =>
      cases t with
      | nil => simp
      | cons b t' =>
          have h2 : ¬ ((a :: b :: t').length < 2) := by simp
          rw [if_neg h2, foldl_add_eq_sum, zero_add,
            range_window_sum (a :: b :: t') (fun bg => (tbl bg).getD (-(3 / 2)))]

theorem mem_splits {w : List Char} {p : List Char × List Char} :
    p ∈ splits w ↔ ∃ i, i ≤ w.length ∧ p = (w.take i, w.drop i) := by
  simp only [splits, List.mem_map, List.mem_range, Nat.lt_succ_iff]
  constructor
  · rintro ⟨i, hi, rfl⟩
    exact ⟨i, hi, rfl⟩
  · rintro ⟨i, hi, rfl⟩
    exact ⟨i, hi, rfl⟩

theorem mem_deletes {w x : List Char} :
    x ∈ deletes w ↔ ∃ i, i < w.length ∧ x = w.take i ++ w.drop (i + 1) := by
  constructor
  · intro hx
    obtain ⟨p, hp, rfl⟩ := List.mem_map.mp hx
    obtain ⟨hps, hne⟩ := List.mem_filter.mp hp
    obtain ⟨i, hi, rfl⟩ := mem_splits.mp hps
    refine ⟨i, ?_, ?_⟩
    · by_contra hlt
      have : w.drop i = [] := List.drop_eq_nil_iff.mpr (by omega)
      simp [this] at hne
    · simp [List.tail_drop]
  · rintro ⟨i, hi, rfl⟩
    refine List.mem_map.mpr ⟨(w.take i, w.drop i), List.mem_filter.mpr ⟨?_, ?_⟩, ?_⟩
    · exact mem_splits.mpr ⟨i, le_of_lt hi, rfl⟩
    · have : w.drop i ≠ [] := fun h => by
        have := List.drop_eq_nil_iff.mp h
        omega
      simpa using this
    · simp [List.tail_drop]

theorem mem_transposes {w x : List Char} :
    x ∈ transposes w ↔ ∃ i, i + 1 < w.length ∧
      x = w.take i ++ ((w.drop i).take 2).reverse ++ w.drop (i + 2) := by
  constructor
  · intro hx
    obtain ⟨p, hp, rfl⟩ := List.mem_map.mp hx
    obtain ⟨hps, hlen⟩ := List.mem_filter.mp hp
    obtain ⟨i, hi, rfl⟩ := mem_splits.mp hps
    have hlen' : 1 < (w.drop i).length := by simpa using hlen
    have hiw : i + 1 < w.length := by
      rw [List.length_drop] at hlen'
      omega
    refine ⟨i, hiw, ?_⟩
    cases hd : w.drop i with
    | nil => rw [hd] at hlen'; simp at hlen'
    | cons a t =>
        cases t with
        | nil => rw [hd] at hlen'; simp at hlen'
        | cons b rest =>
            have hd2 : w.drop (i + 2) = rest := by
              have h1 : w.drop (i + 1) = b :: rest := by
                rw [← List.tail_drop, hd]; rfl
              rw [← List.tail_drop, h1]; rfl
            simp only [hd, hd2, List.append_assoc]
            rfl
  · rintro ⟨i, hi, rfl⟩
    have hlen' : 1 < (w.drop i).length := by
      rw [List.length_drop]; omega
    refine List.mem_map.mpr ⟨(w.take i, w.drop i), List.mem_filter.mpr ⟨?_, ?_⟩, ?_⟩
    · exact mem_splits.mpr ⟨i, by omega, rfl⟩
    · simpa using hlen'
    · cases hd : w.drop i with
      | nil => rw [hd] at hlen'; simp at hlen'
      | cons a t =>
          cases t with
          | nil => rw [hd] at hlen'; simp at hlen'
          | cons b rest =>
              have hd2 : w.drop (i + 2) = rest := by
                have h1 : w.drop (i + 1) = b :: rest := by
                  rw [← List.tail_drop, hd]; rfl
                rw [← List.tail_drop, h1]; rfl
              simp only [hd, hd2, List.append_assoc]
              rfl

theorem mem_replaces {w x : List Char} :
    x ∈ replaces w ↔ ∃ i, i < w.length ∧ ∃ c ∈ letters, x = w.take i ++ c :: w.drop (i + 1) := by
  constructor
  · intro hx
    obtain ⟨p, hp, hxin⟩ := List.mem_flatMap.mp hx
    obtain ⟨hps, hne⟩ := List.mem_filter.mp hp
    obtain ⟨i, hi, rfl⟩ := mem_splits.mp hps
    obtain ⟨c, hc, rfl⟩ := List.mem_map.mp hxin
    refine ⟨i, ?_, c, hc, ?_⟩
    · by_contra hlt
      have : w.drop i = [] := List.drop_eq_nil_iff.mpr (by omega)
      simp [this] at hne
    · simp [List.tail_drop]
  · rintro ⟨i, hi, c, hc, rfl⟩
    refine List.mem_flatMap.mpr ⟨(w.take i, w.drop i), List.mem_filter.mpr ⟨?_, ?_⟩, ?_⟩
    · exact mem_splits.mpr ⟨i, le_of_lt hi, rfl⟩
    · have : w.drop i ≠ [] := fun h => by
        have := List.drop_eq_nil_iff.mp h
        omega
      simpa using this
    · exact List.mem_map.mpr ⟨c, hc, by simp [List.tail_drop]⟩

theorem mem_inserts {w x : List Char} :
    x ∈ inserts w ↔ ∃ i, i ≤ w.length ∧ ∃ c ∈ letters, x = w.take i ++ c :: w.drop i := by
  constructor
  · intro hx
    obtain ⟨p, hp, hxin⟩ := List.mem_flatMap.mp hx
    obtain ⟨i, hi, rfl⟩ := mem_splits.mp hp
    obtain ⟨c, hc, rfl⟩ := List.mem_map.mp hxin
    exact ⟨i, hi, c, hc, rfl⟩
  · rintro ⟨i, hi, c, hc, rfl⟩
    exact List.mem_flatMap.mpr
      ⟨(w.take i, w.drop i), mem_splits.mpr ⟨i, hi, rfl⟩, List.mem_map.mpr ⟨c, hc, rfl⟩⟩

theorem mem_editDistanceOne {w x : List Char} :
    x ∈ editDistanceOne w ↔
      x ∈ deletes w ∨ x ∈ transposes w ∨ x ∈ replaces w ∨ x ∈ inserts w := by
  simp [editDistanceOne, mem_jsSetDedup, or_assoc]

theorem length_filter_range (k m : ℕ) :
    ((List.range k).filter fun i => decide (i < m)).length = min m k := by
  induction k with
  | zero => simp
  | succ k ih =>
      rw [List.range_succ, List.filter_append, List.length_append, ih]
      by_cases h : k < m
      · simp only [List.filter_cons, List.filter_nil, decide_eq_true h, if_pos]
        simp only [List.length_cons, List.length_nil]
        omega
      · simp only [List.filter_cons, List.filter_nil]
        rw [if_neg (by simpa using h)]
        simp only [List.length_nil]
        omega

/-- Filtering `splits` by a predicate that depends on the index as
`i < m` keeps `min m (n + 1)` entries. -/
theorem splits_filter_length (w : List Char) (p : List Char × List Char → Bool) (m : ℕ)
    (hp : ∀ i ≤ w.length, p (w.take i, w.drop i) = decide (i < m)) :
    ((splits w).filter p).length = min m (w.length + 1) := by
  rw [splits, List.filter_map, List.length_map]
  simp only [Function.comp_def]
  rw [List.filter_congr (q := fun i => decide (i < m))
    (fun i hi => hp i (Nat.lt_succ_iff.mp (List.mem_range.mp hi)))]
  exact length_filter_range _ _

theorem deletes_length (w : List Char) : (deletes w).length = w.length := by
  rw [deletes, List.length_map, splits_filter_length w _ w.length]
  · omega
  · intro i hi
    by_cases h : i < w.length
    · have : w.drop i ≠ [] := fun hnil => by
        have := List.drop_eq_nil_iff.mp hnil
        omega
      simp [this, h]
    · have : w.drop i = [] := List.drop_eq_nil_iff.mpr (by omega)
      simp [this, h]

theorem transposes_length (w : List Char) : (transposes w).length = w.length - 1 := by
  rw [transposes, List.length_map, splits_filter_length w _ (w.length - 1)]
  · omega
  · intro i hi
    rw [List.length_drop]
    by_cases h : i < w.length - 1
    · simp only [decide_eq_true h]
      simp only [decide_eq_true_eq]
      omega
    · simp only [decide_eq_false h]
      simp only [decide_eq_false_iff_not]
      omega

theorem replaces_length (w : List Char) : (replaces w).length = w.length * letters.length := by
  rw [replaces, List.length_flatMap]
  have hmap : List.map (List.length ∘ fun p : List Char × List Char =>
      letters.map fun c => p.1 ++ c :: p.2.tail)
      ((splits w).filter fun p => !p.2.isEmpty)
      = List.map (Function.const _ letters.length)
        ((splits w).filter fun p => !p.2.isEmpty) := by
    apply List.map_congr_left
    intro p _
    simp [Function.comp]
  rw [hmap, List.map_const, List.sum_replicate, smul_eq_mul]
  have hfl : ((splits w).filter fun p => !p.2.isEmpty).length = w.length := by
    rw [splits_filter_length w _ w.length]
    · omega
    · intro i hi
      by_cases h : i < w.length
      · have : w.drop i ≠ [] := fun hnil => by
          have := List.drop_eq_nil_iff.mp hnil
          omega
        simp [this, h]
      · have : w.drop i = [] := List.drop_eq_nil_iff.mpr (by omega)
        simp [this, h]
  rw [hfl]

theorem inserts_length (w : List Char) : (inserts w).length = (w.length + 1) * letters.length := by
  rw [inserts, List.length_flatMap]
  have hmap : List.map (List.length ∘ fun p : List Char × List Char =>
      letters.map fun c => p.1 ++ c :: p.2) (splits w)
      = List.map (Function.const _ letters.length) (splits w) := by
    apply List.map_congr_left
    intro p _
    simp [Function.comp]
  rw [hmap, List.map_const, List.sum_replicate, smul_eq_mul]
  have : (splits w).length = w.length + 1 := by
    rw [splits, List.length_map, List.length_range]
  rw [this]

theorem scoredList_spec {candidates : List (List Char)} {model : Model}
    {customWords : List (List Char)} {log : ℚ → ℚ} {x : Scored}
    (hx : x ∈ scoredList candidates model customWords log) :
    (x.candidate ∈ model.dictionary ∨ x.candidate ∈ customWords) ∧
      x.score = candidateScore x.candidate model log := by
  obtain ⟨c, _, hc⟩ := List.mem_filterMap.mp hx
  by_cases h : c ∈ model.dictionary ∨ c ∈ customWords
  · rw [if_pos h] at hc
    cases hc
    exact ⟨h, rfl⟩
  · rw [if_neg h] at hc
    cases hc

theorem mem_rank_elim {token : List Char} {candidates : List (List Char)} {model : Model}
    {customWords : List (List Char)} {log : ℚ → ℚ} {s : List Char}
    (hs : s ∈ rankCandidates token candidates model customWords log) :
    s ∈ model.dictionary ∨ s ∈ customWords := by
  obtain ⟨e, he, rfl⟩ := List.mem_map.mp hs
  have he1 : e ∈ List.insertionSort scoreGE (scoredList candidates model customWords log) :=
    (List.take_sublist 5 _).mem he
  have he2 : e ∈ scoredList candidates model customWords log :=
    (List.perm_insertionSort scoreGE _).mem_iff.mp he1
  exact (scoredList_spec he2).1

theorem rank_length_le (token : List Char) (candidates : List (List Char)) (model : Model)
    (customWords : List (List Char)) (log : ℚ → ℚ) :
    (rankCandidates token candidates model customWords log).length ≤ 5 := by
  rw [rankCandidates, List.length_map]
  exact le_trans (List.length_take_le 5 _) (le_refl 5)

theorem rank_sorted (token : List Char) (candidates : List (List Char)) (model : Model)
    (customWords : List (List Char)) (log : ℚ → ℚ) :
    List.Sorted (· ≥ ·)
      ((rankCandidates token candidates model customWords log).map
        fun c => scoreWord c model.bigramScores + log ((model.frequencies c).getD 1)) := by
  rw [rankCandidates, List.map_map]
  have hsorted : List.Pairwise scoreGE
      (List.insertionSort scoreGE (scoredList candidates model customWords log)) :=
    List.sorted_insertionSort scoreGE _
  have htake : List.Pairwise scoreGE
      ((List.insertionSort scoreGE (scoredList candidates model customWords log)).take 5) :=
    hsorted.sublist (List.take_sublist 5 _)
  refine List.pairwise_map.mpr (htake.imp_of_mem ?_)
  intro a b ha hb hab
  have hmem : ∀ {e : Scored},
      e ∈ (List.insertionSort scoreGE (scoredList candidates model customWords log)).take 5 →
      e.score = candidateScore e.candidate model log := fun he =>
    (scoredList_spec ((List.perm_insertionSort scoreGE _).mem_iff.mp
      ((List.take_sublist 5 _).mem he))).2
  have ha' := hmem ha
  have hb' := hmem hb
  show (fun c => scoreWord c model.bigramScores + log ((model.frequencies c).getD 1)) a.candidate
    ≥ (fun c => scoreWord c model.bigramScores + log ((model.frequencies c).getD 1)) b.candidate
  have haeq : (fun c => scoreWord c model.bigramScores + log ((model.frequencies c).getD 1))
      a.candidate = a.score := ha'.symm
  have hbeq : (fun c => scoreWord c model.bigramScores + log ((model.frequencies c).getD 1))
      b.candidate = b.score := hb'.symm
  rw [haeq, hbeq]
  exact hab

deriving instance DecidableEq for Except

/-! ### Concrete instances used for witnesses and counterexamples -/

/-- An always-missing lookup table. -/
def noTable : List Char → Option ℚ := fun _ => none

/-- A lexicon with an empty dictionary and no table entries. -/
def emptyModel : Model := ⟨[], noTable, noTable⟩

/-- A lexicon knowing only the word "a". -/
def aModel : Model := ⟨[['a']], noTable, noTable⟩

/-- A lexicon with an empty dictionary whose bigram table scores "zz" as 7. -/
def zzModel : Model := ⟨[], noTable, fun bg => if bg = ['z', 'z'] then some 7 else none⟩

/-- The custom-word set containing exactly "zz". -/
def zzCustom : List (List Char) := [['z', 'z']]

/-- A placeholder interpretation of `Math.log`. -/
def log0 : ℚ → ℚ := fun _ => 0

/-- Enabled options with no custom words. -/
def enabledOptions : Options := ⟨true, "en-US".toList, [], []⟩

/-- Disabled options. -/
def disabledOptions : Options := ⟨false, "en-US".toList, [], []⟩

/-- Enabled options whose custom words are "zyx". -/
def zyxOptions : Options := ⟨true, "en-US".toList, "zyx".toList, []⟩

/-- An environment whose every fetch yields the given lexicon. -/
def okEnv (m : Model) : List Char → Except LoadError Model := fun _ => .ok m

/-- An environment whose every fetch fails. -/
def failEnv : List Char → Except LoadError Model := fun _ => .error .fetchFailed

/-- Fresh service-worker state (empty cache) holding the given options. -/
def freshState (o : Options) : SWState := ⟨o, []⟩

/-! ### Lemmas about `suggestCorrections` -/

theorem suggest_short_circuit (env : List Char → Except LoadError Model) (stored : Options)
    (st : SWState) (token : List Char) (log : ℚ → ℚ) (model : Model)
    (hen : st.currentOptions.enabled = true)
    (hload : (loadModel env st st.currentOptions.language).1 = Except.ok model)
    (hknown : (toLowerCase token).isEmpty ∨ toLowerCase token ∈ model.dictionary ∨
      toLowerCase token ∈ parseCustomWords st.currentOptions.customWords) :
    (suggestCorrections env stored st token log).response = Except.ok ⟨true, []⟩ ∧
      (suggestCorrections env stored st token log).genInvoked = false := by
  rcases hlm : loadModel env st st.currentOptions.language with ⟨r, st2⟩
  rw [hlm] at hload
  have hr : r = Except.ok model := hload
  subst hr
  unfold suggestCorrections suggestCore
  simp only [hen, if_true, ite_true]
  rw [hlm]
  simp only
  rw [if_pos hknown]
  exact ⟨rfl, rfl⟩

theorem suggest_disabled (env : List Char → Except LoadError Model) (stored : Options)
    (st : SWState) (token : List Char) (log : ℚ → ℚ)
    (h1 : st.currentOptions.enabled = false) (h2 : stored.enabled = false) :
    (suggestCorrections env stored st token log).response = Except.ok ⟨true, []⟩ ∧
      (suggestCorrections env stored st token log).state.modelCache = st.modelCache ∧
      (suggestCorrections env stored st token log).loadInvoked = false ∧
      (suggestCorrections env stored st token log).genInvoked = false := by
  unfold suggestCorrections suggestCore
  simp [h1, h2]

/-- Every `suggestCore` run either short-circuits with the fail-open
verdict, rejects, or reaches the generation/ranking stage with a token
known to be in neither the dictionary nor the custom set. -/
theorem core_response_shape (env : List Char → Except LoadError Model) (options : Options)
    (st1 : SWState) (token : List Char) (log : ℚ → ℚ) :
    (suggestCore env options st1 token log).response = Except.ok ⟨true, []⟩ ∨
    (∃ e, (suggestCore env options st1 token log).response = Except.error e) ∨
    (∃ model : Model, ∃ customWords : List (List Char),
      toLowerCase token ∉ model.dictionary ∧ toLowerCase token ∉ customWords ∧
      ∃ suggestions, suggestions = rankCandidates (toLowerCase token)
          (editDistanceOne (toLowerCase token)) model customWords log ∧
        (suggestCore env options st1 token log).response
          = Except.ok ⟨suggestions.length == 0, suggestions⟩) := by
  simp only [suggestCore]
  split
  · left; rfl
  · split
    · right; left; exact ⟨_, rfl⟩
    · split
      · left; rfl
      · rename_i hk
        push_neg at hk
        right; right
        exact ⟨_, _, hk.2.1, hk.2.2, _, rfl, rfl⟩

/-- The response shape transported to `suggestCorrections`. -/
theorem suggest_response_shape (env : List Char → Except LoadError Model) (stored : Options)
    (st : SWState) (token : List Char) (log : ℚ → ℚ) :
    (suggestCorrections env stored st token log).response = Except.ok ⟨true, []⟩ ∨
    (∃ e, (suggestCorrections env stored st token log).response = Except.error e) ∨
    (∃ model : Model, ∃ customWords : List (List Char),
      toLowerCase token ∉ model.dictionary ∧ toLowerCase token ∉ customWords ∧
      ∃ suggestions, suggestions = rankCandidates (toLowerCase token)
          (editDistanceOne (toLowerCase token)) model customWords log ∧
        (suggestCorrections env stored st token log).response
          = Except.ok ⟨suggestions.length == 0, suggestions⟩) :=
  core_response_shape env _ _ token log

/-! ### Claim theorems -/

/-- C1: for every token, candidate set, lexicon and custom word set, the
ranker returns at most 5 strings, each a member of the dictionary or the
custom set (unknown candidates are discarded, never scored), sorted in
non-increasing order of the score `bigram log score + log (frequency
defaulting to 1)`. -/
theorem rank_spec (token : List Char) (candidates : List (List Char)) (model : Model)
    (customWords : List (List Char)) (log : ℚ → ℚ) :
    (rankCandidates token candidates model customWords log).length ≤ 5 ∧
    (∀ s ∈ rankCandidates token candidates model customWords log,
      s ∈ model.dictionary ∨ s ∈ customWords) ∧
    List.Sorted (· ≥ ·)
      ((rankCandidates token candidates model customWords log).map
        fun c => scoreWord c model.bigramScores + log ((model.frequencies c).getD 1)) :=
  ⟨rank_length_le token candidates model customWords log,
   fun _ hs => mem_rank_elim hs,
   rank_sorted token candidates model customWords log⟩

set_option maxRecDepth 10000 in
/-- Witness for C1 at a concrete input: "a" survives ranking and is a
dictionary or custom word. -/
theorem rank_spec_witness :
    ['a'] ∈ aModel.dictionary ∨ ['a'] ∈ ([] : List (List Char)) :=
  (rank_spec ['b'] [['a']] aModel [] log0).2.1 ['a'] (by decide)

/-- C2: for a lowercased word the bigram log score is the sum over its
`n - 1` adjacent 2-character windows of the table entry, `-1.5` when the
window is absent; words shorter than 2 score 0; "xq" with no recorded
bigram scores exactly `-1.5`. -/
theorem scoreWord_spec (w : List Char) (tbl : List Char → Option ℚ)
    (hlow : toLowerCase w = w) :
    (w.zip w.tail).length = w.length - 1 ∧
    (2 ≤ w.length →
      scoreWord w tbl = ((w.zip w.tail).map fun p => (tbl [p.1, p.2]).getD (-(3 / 2))).sum) ∧
    (w.length < 2 → scoreWord w tbl = 0) ∧
    scoreWord ['x', 'q'] (fun _ => none) = -(3 / 2) := by
  refine ⟨?_, ?_, ?_, ?_⟩
  · rw [List.length_zip, List.length_tail]
    omega
  · intro _
    rw [scoreWord_eq_windowSum, hlow]
  · intro hlt
    simp only [scoreWord, hlow]
    rw [if_pos hlt]
  · rw [scoreWord_eq_windowSum]
    norm_num [toLowerCase, jsToLower]

/-- Witness for C2 at the concrete word "xq" and the empty table. -/
theorem scoreWord_spec_witness :
    scoreWord ['x', 'q'] (fun _ => none) = -(3 / 2) :=
  (scoreWord_spec ['x', 'q'] (fun _ => none) (by decide)).2.2.2

set_option maxRecDepth 1000000 in
/-- C3: `editDistanceOne` is the deduplicated set of the four split-based
edit families — exactly the `n` deletions, the `n - 1` adjacent
transpositions (right part longer than 1), the `n * a` substitutions and
the `(n + 1) * a` insertions; the empty word yields only the `a`
insertion variants and a single character yields no transpositions. -/
theorem editDistanceOne_spec (w : List Char) :
    (∀ x, x ∈ editDistanceOne w ↔
      ((∃ i, i < w.length ∧ x = w.take i ++ w.drop (i + 1)) ∨
       (∃ i, i + 1 < w.length ∧
         x = w.take i ++ ((w.drop i).take 2).reverse ++ w.drop (i + 2)) ∨
       (∃ i, i < w.length ∧ ∃ c ∈ letters, x = w.take i ++ c :: w.drop (i + 1)) ∨
       (∃ i, i ≤ w.length ∧ ∃ c ∈ letters, x = w.take i ++ c :: w.drop i))) ∧
    (deletes w).length = w.length ∧
    (transposes w).length = w.length - 1 ∧
    (replaces w).length = w.length * letters.length ∧
    (inserts w).length = (w.length + 1) * letters.length ∧
    editDistanceOne [] = letters.map (fun c => [c]) ∧
    (∀ c : Char, transposes [c] = []) := by
  refine ⟨fun x => ?_, deletes_length w, transposes_length w, replaces_length w,
    inserts_length w, by decide, fun c => rfl⟩
  rw [mem_editDistanceOne, mem_deletes, mem_transposes, mem_replaces, mem_inserts]

/-- Witness for C3: the deletion "b" of "ab" is generated. -/
theorem editDistanceOne_spec_witness :
    (['b'] : List Char) ∈ editDistanceOne ['a', 'b'] :=
  ((editDistanceOne_spec ['a', 'b']).1 ['b']).mpr (Or.inl ⟨0, by decide, by decide⟩)

/-- C4: a token whose lowercased form is empty, in the dictionary, or in
the parsed custom set makes `suggestCorrections` return
`{isCorrect: true, suggestions: []}` without running generation or
ranking. -/
theorem check_known_token_spec (env : List Char → Except LoadError Model) (stored : Options)
    (st : SWState) (token : List Char) (log : ℚ → ℚ) (model : Model)
    (hen : st.currentOptions.enabled = true)
    (hload : (loadModel env st st.currentOptions.language).1 = Except.ok model)
    (hknown : (toLowerCase token).isEmpty ∨ toLowerCase token ∈ model.dictionary ∨
      toLowerCase token ∈ parseCustomWords st.currentOptions.customWords) :
    (suggestCorrections env stored st token log).response = Except.ok ⟨true, []⟩ ∧
      (suggestCorrections env stored st token log).genInvoked = false :=
  suggest_short_circuit env stored st token log model hen hload hknown

set_option maxRecDepth 10000 in
/-- Witness for C4: custom words "zyx" make the token "zyx" correct even
though the dictionary is empty. -/
theorem check_known_token_spec_witness :
    (suggestCorrections (okEnv emptyModel) zyxOptions (freshState zyxOptions)
        "zyx".toList log0).response = Except.ok ⟨true, []⟩ ∧
      (suggestCorrections (okEnv emptyModel) zyxOptions (freshState zyxOptions)
        "zyx".toList log0).genInvoked = false :=
  check_known_token_spec (okEnv emptyModel) zyxOptions (freshState zyxOptions)
    "zyx".toList log0 emptyModel rfl rfl (Or.inr (Or.inr (by decide)))

set_option maxRecDepth 100000 in
/-- Counterexample to C5: for the non-empty word "a" the generator does
return a set containing "a" itself (identity substitution). -/
theorem generate_excludes_input_cex :
    (['a'] : List Char) ≠ [] ∧ (['a'] : List Char) ∈ editDistanceOne ['a'] := by
  decide

/-- C5 amended: for every word containing at least one alphabet letter,
`editDistanceOne` DOES contain the word itself, reached by substituting
that letter for itself. -/
theorem generate_contains_input (w : List Char) (hw : ∃ c ∈ w, c ∈ letters) :
    w ∈ editDistanceOne w := by
  obtain ⟨c, hcw, hcl⟩ := hw
  obtain ⟨i, hi, rfl⟩ := List.mem_iff_getElem.mp hcw
  rw [mem_editDistanceOne]
  refine Or.inr (Or.inr (Or.inl (mem_replaces.mpr ⟨i, hi, w[i], hcl, ?_⟩)))
  rw [← List.drop_eq_getElem_cons hi, List.take_append_drop]

/-- Witness for the amended C5 at the concrete word "ab". -/
theorem generate_contains_input_witness :
    (['a', 'b'] : List Char) ∈ editDistanceOne ['a', 'b'] :=
  generate_contains_input ['a', 'b'] ⟨'a', by decide, by decide⟩

set_option maxRecDepth 400000 in
/-- Counterexample to C6: the whitespace-only token " " is not
short-circuited; with a lexicon knowing "a" it comes back marked
incorrect with the suggestion "a". -/
theorem check_whitespace_cex :
    jsIsSpace ' ' = true ∧
    (suggestCorrections (okEnv aModel) enabledOptions (freshState enabledOptions)
        [' '] log0).response = Except.ok ⟨false, [['a']]⟩ ∧
    (suggestCorrections (okEnv aModel) enabledOptions (freshState enabledOptions)
        [' '] log0).response ≠ Except.ok ⟨true, []⟩ := by
  decide

/-- C6 amended: only the genuinely empty token is guaranteed the
`{isCorrect: true, suggestions: []}` verdict; whitespace-only tokens go
through generation and ranking. -/
theorem check_empty_token (env : List Char → Except LoadError Model) (stored : Options)
    (st : SWState) (log : ℚ → ℚ) (model : Model)
    (hen : st.currentOptions.enabled = true)
    (hload : (loadModel env st st.currentOptions.language).1 = Except.ok model) :
    (suggestCorrections env stored st [] log).response = Except.ok ⟨true, []⟩ :=
  (suggest_short_circuit env stored st [] log model hen hload (Or.inl (by decide))).1

/-- Witness for the amended C6 at concrete inputs. -/
theorem check_empty_token_witness :
    (suggestCorrections (okEnv emptyModel) enabledOptions (freshState enabledOptions)
        [] log0).response = Except.ok ⟨true, []⟩ :=
  check_empty_token (okEnv emptyModel) enabledOptions (freshState enabledOptions) log0
    emptyModel rfl rfl

set_option maxRecDepth 10000 in
/-- Counterexample to C7: the custom word "zz" survives the filter, yet
its score is 7 (the bigram table entry for "zz"), not the claimed
default `-1.5` per window plus `log 1`. -/
theorem custom_word_score_cex :
    (['z', 'z'] : List Char) ∈ zzCustom ∧
    (['z', 'z'] : List Char) ∉ zzModel.dictionary ∧
    rankCandidates ['z', 'q'] [['z', 'z']] zzModel zzCustom log0 = [['z', 'z']] ∧
    candidateScore ['z', 'z'] zzModel log0 = 7 ∧
    ((-(3 / 2)) + log0 1 : ℚ) ≠ 7 := by
  refine ⟨by decide, by decide, by decide, ?_, by norm_num [log0]⟩
  unfold candidateScore
  rw [scoreWord_eq_windowSum, show toLowerCase ['z', 'z'] = ['z', 'z'] from by decide]
  norm_num [zzModel, noTable, log0]

/-- C7 amended: a custom-word candidate is scored by the same formula as
any candidate; only when it has no frequency entry and none of its
windows appear in the bigram table does its score reduce to
`-1.5 * windows + log 1`. -/
theorem custom_word_default_score (model : Model) (customWords : List (List Char))
    (log : ℚ → ℚ) (c : List Char) (_hcustom : c ∈ customWords)
    (hfreq : model.frequencies c = none)
    (hbig : ∀ p ∈ (toLowerCase c).zip (toLowerCase c).tail,
      model.bigramScores [p.1, p.2] = none) :
    candidateScore c model log
      = (((toLowerCase c).zip (toLowerCase c).tail).length : ℚ) * (-(3 / 2)) + log 1 := by
  unfold candidateScore
  rw [hfreq, scoreWord_eq_windowSum]
  have hrep : ((toLowerCase c).zip (toLowerCase c).tail).map
      (fun p => (model.bigramScores [p.1, p.2]).getD (-(3 / 2)))
      = List.replicate (((toLowerCase c).zip (toLowerCase c).tail).length) (-(3 / 2) : ℚ) := by
    rw [List.eq_replicate_iff]
    refine ⟨by rw [List.length_map], ?_⟩
    intro b hb
    obtain ⟨p, hp, rfl⟩ := List.mem_map.mp hb
    rw [hbig p hp]
    rfl
  rw [hrep, List.sum_replicate, nsmul_eq_mul, Option.getD_none]

/-- Witness for the amended C7 at the concrete custom word "qz". -/
theorem custom_word_default_score_witness :
    candidateScore ['q', 'z'] emptyModel log0
      = (((toLowerCase ['q', 'z']).zip (toLowerCase ['q', 'z']).tail).length : ℚ) * (-(3 / 2))
        + log0 1 :=
  custom_word_default_score emptyModel [['q', 'z']] log0 ['q', 'z'] (by decide) rfl (by decide)

/-- C8: with the enabled flag false, `suggestCorrections` answers
`{isCorrect: true, suggestions: []}` for every token, the model cache is
untouched, and neither the lexicon load nor generation/ranking runs. -/
theorem check_disabled_spec (env : List Char → Except LoadError Model) (stored : Options)
    (st : SWState) (token : List Char) (log : ℚ → ℚ)
    (h1 : st.currentOptions.enabled = false) (h2 : stored.enabled = false) :
    (suggestCorrections env stored st token log).response = Except.ok ⟨true, []⟩ ∧
      (suggestCorrections env stored st token log).state.modelCache = st.modelCache ∧
      (suggestCorrections env stored st token log).loadInvoked = false ∧
      (suggestCorrections env stored st token log).genInvoked = false :=
  suggest_disabled env stored st token log h1 h2

/-- Witness for C8 at concrete disabled options. -/
theorem check_disabled_spec_witness :
    (suggestCorrections failEnv disabledOptions (freshState disabledOptions)
        ['x'] log0).response = Except.ok ⟨true, []⟩ ∧
      (suggestCorrections failEnv disabledOptions (freshState disabledOptions)
        ['x'] log0).state.modelCache = (freshState disabledOptions).modelCache ∧
      (suggestCorrections failEnv disabledOptions (freshState disabledOptions)
        ['x'] log0).loadInvoked = false ∧
      (suggestCorrections failEnv disabledOptions (freshState disabledOptions)
        ['x'] log0).genInvoked = false :=
  check_disabled_spec failEnv disabledOptions (freshState disabledOptions) ['x'] log0 rfl rfl

/-- C9: whenever the pipeline rejects (lexicon fetch/parse failure), the
message listener catches and the caller receives the fail-open verdict
`{isCorrect: true, suggestions: []}` instead of an error. -/
theorem check_fail_open (env : List Char → Except LoadError Model) (stored : Options)
    (st : SWState) (token : List Char) (log : ℚ → ℚ) (e : LoadError)
    (herr : (suggestCorrections env stored st token log).response = Except.error e) :
    handleSpellcheck env stored st token log = ⟨true, []⟩ := by
  unfold handleSpellcheck
  rw [herr]

/-- Witness for C9 at a concrete failing environment. -/
theorem check_fail_open_witness :
    handleSpellcheck failEnv enabledOptions (freshState enabledOptions) ['x'] log0
      = ⟨true, []⟩ :=
  check_fail_open failEnv enabledOptions (freshState enabledOptions) ['x'] log0
    .fetchFailed (by decide)

/-- C10: no returned suggestion ever equals the lowercased input token:
ranking only runs when the normalized token is outside the dictionary
and the custom set, and every suggestion is inside their union. -/
theorem suggestions_never_input (env : List Char → Except LoadError Model) (stored : Options)
    (st : SWState) (token : List Char) (log : ℚ → ℚ) (s : List Char)
    (hs : s ∈ (handleSpellcheck env stored st token log).suggestions) :
    s ≠ toLowerCase token := by
  rcases suggest_response_shape env stored st token log with
    h | ⟨e, h⟩ | ⟨model, cw, hd, hc, sugg, hsugg, h⟩
  · have hv : handleSpellcheck env stored st token log = ⟨true, []⟩ := by
      unfold handleSpellcheck
      rw [h]
    rw [hv] at hs
    simp at hs
  · have hv : handleSpellcheck env stored st token log = ⟨true, []⟩ := by
      unfold handleSpellcheck
      rw [h]
    rw [hv] at hs
    simp at hs
  · have hv : handleSpellcheck env stored st token log = ⟨sugg.length == 0, sugg⟩ := by
      unfold handleSpellcheck
      rw [h]
    rw [hv] at hs
    replace hs : s ∈ sugg := hs
    subst hsugg
    intro heq
    rcases mem_rank_elim hs with hmem | hmem
    · exact hd (heq ▸ hmem)
    · exact hc (heq ▸ hmem)

set_option maxRecDepth 400000 in
/-- Witness for C10: in the run that suggests "a" for the token " ", the
suggestion differs from the lowercased token. -/
theorem suggestions_never_input_witness :
    (['a'] : List Char) ≠ toLowerCase [' '] :=
  suggestions_never_input (okEnv aModel) enabledOptions (freshState enabledOptions)
    [' '] log0 ['a'] (by decide)

end SpellCheck
